import Mathlib

/-!
Verification of the teacher-app memory lifecycle engine and agent completion
loop.  The definitions below are a shallow embedding of the TypeScript source:

* `softDeleteMemories`, `recordMemoryAccess`, `expireMemories` embed
  `src/models/memory.ts` (the Mongo collection is a `List MemRec`, `updateMany`
  is a `map` over it, timestamps are integer milliseconds).
* `processOutput` / `extractMemoriesStep` embed the reconciliation loop of
  `src/workers/thread-update-worker.ts` (`extractMemories`).
* `stepChunk` / `runStream` embed the partial-JSON streaming extractor of
  `Agent.createResponse` in `src/core/agent.ts`; `completionLoop` embeds its
  bounded multi-pass tool loop and `finalizeResponse` its finalization tail.
* `jsonParse` models the platform `JSON.parse` builtin (not repository code)
  for the JSON constructs the structured-output schema can produce: objects,
  arrays, strings, booleans and null.

JavaScript's `Array.prototype.sort` is a stable sort; it is embedded as the
stable insertion sort `sortBy`.
-/

namespace TeacherApp

/-- A document of the `Memory` collection (`src/models/memory.ts`).
Object ids are `Nat`, dates are integer milliseconds since the epoch,
string contents are `List Char`. -/
structure MemRec where
  id : Nat
  threadId : Nat
  userId : Nat
  content : List Char
  accessCount : Int
  createdAt : Int
  lastAccessedAt : Option Int
  deletedAt : Option Int
  consolidatedFromIds : List Nat
  lessonPlanId : Option Nat
deriving DecidableEq, Repr

/-- The `Memory` collection. -/
abbrev Store := List MemRec

/-- `softDeleteMemories(memoryIds)`: early return on an empty id list,
otherwise `updateMany({_id ∈ ids}, {$set: {deletedAt: now}})`.  Note the
filter is by `_id` only — already-deleted documents are re-stamped. -/
def softDeleteMemories (now : Int) (ids : List Nat) (s : Store) : Store :=
  if ids.isEmpty then s
  else s.map fun m => if m.id ∈ ids then { m with deletedAt := some now } else m

/-- `recordMemoryAccess(memoryIds)`: early return on an empty id list,
otherwise `updateMany({_id ∈ ids, deletedAt: null},
{$inc: {accessCount: 1}, $set: {lastAccessedAt: now}})`. -/
def recordMemoryAccess (now : Int) (ids : List Nat) (s : Store) : Store :=
  if ids.isEmpty then s
  else s.map fun m =>
    if m.id ∈ ids ∧ m.deletedAt = none then
      { m with accessCount := m.accessCount + 1, lastAccessedAt := some now }
    else m

/-- Stable insertion of `a` into `l`: `a` goes before the first element `b`
with `le a b` (ties keep the earlier element first, as a stable sort does). -/
def insertBy (le : α → α → Bool) (a : α) : List α → List α
  | [] => [a]
  | b :: bs => if le a b then a :: b :: bs else b :: insertBy le a bs

/-- Stable sort, embedding JavaScript's stable `Array.prototype.sort`. -/
def sortBy (le : α → α → Bool) : List α → List α
  | [] => []
  | x :: xs => insertBy le x (sortBy le xs)

theorem length_insertBy (le : α → α → Bool) (a : α) (l : List α) :
    (insertBy le a l).length = l.length + 1 := by
  induction l with
  | nil => rfl
  | cons b bs ih =>
    simp only [insertBy]
    split <;> simp [ih]

theorem length_sortBy (le : α → α → Bool) (l : List α) :
    (sortBy le l).length = l.length := by
  induction l with
  | nil => rfl
  | cons x xs ih => simp [sortBy, length_insertBy, ih]

theorem mem_insertBy (le : α → α → Bool) (a x : α) (l : List α) :
    x ∈ insertBy le a l ↔ x = a ∨ x ∈ l := by
  induction l with
  | nil => simp [insertBy]
  | cons b bs ih =>
    simp only [insertBy]
    split
    · simp
    · simp only [List.mem_cons, ih]
      tauto

theorem mem_sortBy (le : α → α → Bool) (x : α) (l : List α) :
    x ∈ sortBy le l ↔ x ∈ l := by
  induction l with
  | nil => simp [sortBy]
  | cons y ys ih => simp [sortBy, mem_insertBy, ih]

/-- `ExpireMemoriesConfig` from `src/models/memory.ts`. -/
structure ExpireMemoriesConfig where
  maxMemories : Nat
  minAgeDays : Int
  minAccessCount : Int
  staleAfterDays : Int
deriving DecidableEq, Repr

/-- `DEFAULT_EXPIRE_CONFIG`. -/
def DEFAULT_EXPIRE_CONFIG : ExpireMemoriesConfig :=
  { maxMemories := 5, minAgeDays := 30, minAccessCount := 2, staleAfterDays := 14 }

def msPerDay : Int := 24 * 60 * 60 * 1000

/-- `scoreMemory`: `accessCount - ageDays * 0.1`, computed exactly in ℚ. -/
def scoreMemory (now : Int) (m : MemRec) : ℚ :=
  (m.accessCount : ℚ) - ((now - m.createdAt : Int) : ℚ) / (msPerDay : ℚ) * (1 / 10)

/-- The first-pass filter of `expireMemories`: older than `minAgeDays`,
fewer than `minAccessCount` accesses, not accessed within `staleAfterDays`
(or never accessed). -/
def isStaleCandidate (now : Int) (cfg : ExpireMemoriesConfig) (m : MemRec) : Bool :=
  decide (m.createdAt < now - cfg.minAgeDays * msPerDay) &&
  decide (m.accessCount < cfg.minAccessCount) &&
  (match m.lastAccessedAt with
   | none => true
   | some la => decide (la < now - cfg.staleAfterDays * msPerDay))

structure ExpireResult where
  expiredCount : Nat
  expiredIds : List Nat
  store : Store
deriving DecidableEq, Repr

/-- Ascending-by-score comparison used by both passes of `expireMemories`. -/
def scoreLe (now : Int) (a b : MemRec) : Bool :=
  decide (scoreMemory now a ≤ scoreMemory now b)

/-- `expireMemories(userId, config)` from `src/models/memory.ts`:
load the user's active memories; no-op when at or under `maxMemories`;
otherwise soft-delete `excess` of them, preferring stale candidates sorted
ascending by score, then remaining memories ascending by score.  The
for/push/break loops of the source bound the collected list by
`excessCount`, which is `List.take`. -/
def expireMemories (now : Int) (userId : Nat) (cfg : ExpireMemoriesConfig)
    (s : Store) : ExpireResult :=
  let activeMemories := s.filter fun m =>
    decide (m.userId = userId) && decide (m.deletedAt = none)
  if activeMemories.length ≤ cfg.maxMemories then
    { expiredCount := 0, expiredIds := [], store := s }
  else
    let excessCount := activeMemories.length - cfg.maxMemories
    let staleCandidates := activeMemories.filter (isStaleCandidate now cfg)
    let staleSorted := sortBy (scoreLe now) staleCandidates
    let firstPass := (staleSorted.take excessCount).map (·.id)
    let toExpire :=
      if firstPass.length < excessCount then
        let remaining := sortBy (scoreLe now)
          (activeMemories.filter fun m => !(decide (m.id ∈ firstPass)))
        firstPass ++ (remaining.take (excessCount - firstPass.length)).map (·.id)
      else firstPass
    if toExpire.isEmpty then
      { expiredCount := 0, expiredIds := [], store := s }
    else
      { expiredCount := toExpire.length, expiredIds := toExpire,
        store := s.map fun m =>
          if m.id ∈ toExpire then { m with deletedAt := some now } else m }

/-- The user's active-memory count. -/
def countActive (userId : Nat) (s : Store) : Nat :=
  (s.filter fun m => decide (m.userId = userId) && decide (m.deletedAt = none)).length

theorem countP_split (p q : α → Bool) (l : List α) :
    l.countP p =
      l.countP (fun a => p a && q a) + l.countP (fun a => p a && !q a) := by
  induction l with
  | nil => simp
  | cons x xs ih =>
    simp only [List.countP_cons, ih]
    cases hp : p x <;> cases hq : q x <;> simp [hp, hq] <;> omega

/-- Deleting by a list of ids removes at most `ids.length` memories from any
user's active set, provided the store's ids are distinct. -/
theorem countActive_map_delete (now : Int) (uid : Nat) (ids : List Nat) (s : Store)
    (hnd : (s.map MemRec.id).Nodup) :
    countActive uid s ≤
      countActive uid (s.map fun m =>
        if m.id ∈ ids then { m with deletedAt := some now } else m)
      + ids.length := by
  classical
  set activeP : MemRec → Bool :=
    fun m => decide (m.userId = uid) && decide (m.deletedAt = none) with hactiveP
  have hmapfilter :
      countActive uid (s.map fun m =>
          if m.id ∈ ids then { m with deletedAt := some now } else m)
        = s.countP (fun m => activeP m && !(decide (m.id ∈ ids))) := by
    unfold countActive
    rw [List.filter_map, List.length_map, ← List.countP_eq_length_filter]
    apply List.countP_congr
    intro m _
    by_cases hc : m.id ∈ ids
    · simp [Function.comp, hc, hactiveP]
    · simp [Function.comp, hc, hactiveP]
  have hsplit := countP_split activeP (fun m => decide (m.id ∈ ids)) s
  have hbound : s.countP (fun m => activeP m && decide (m.id ∈ ids)) ≤ ids.length := by
    rw [List.countP_eq_length_filter]
    set D := s.filter (fun m => activeP m && decide (m.id ∈ ids)) with hD
    have hsub : D.Sublist s := List.filter_sublist s
    have hndD : (D.map MemRec.id).Nodup := hnd.sublist (hsub.map MemRec.id)
    have hsubset : (D.map MemRec.id) ⊆ ids := by
      intro x hx
      obtain ⟨m, hm, rfl⟩ := List.mem_map.mp hx
      have h2 := (List.mem_filter.mp hm).2
      simp only [Bool.and_eq_true, decide_eq_true_eq] at h2
      exact h2.2
    calc D.length = (D.map MemRec.id).length := (List.length_map _ _).symm
      _ ≤ ids.length := (List.subperm_of_subset hndD hsubset).length_le
  have hcount : countActive uid s = s.countP activeP := by
    unfold countActive
    rw [List.countP_eq_length_filter]
  rw [hcount, hmapfilter]
  omega

/-- C1 — Expiration monotonicity: `expireMemories` never reduces the user's
active-memory count below `min(currentCount, maxMemories)`, and when the
count is at most `maxMemories` it is a no-op returning `expiredCount = 0`
and an empty id list. -/
theorem expireMemories_monotone (now : Int) (uid : Nat)
    (cfg : ExpireMemoriesConfig) (s : Store)
    (hnd : (s.map MemRec.id).Nodup) :
    (countActive uid s ≤ cfg.maxMemories →
        expireMemories now uid cfg s =
          { expiredCount := 0, expiredIds := [], store := s }) ∧
    min (countActive uid s) cfg.maxMemories ≤
      countActive uid (expireMemories now uid cfg s).store := by
  classical
  unfold expireMemories
  set active := s.filter
    (fun m => decide (m.userId = uid) && decide (m.deletedAt = none)) with hactive
  have hcnt : countActive uid s = active.length := rfl
  by_cases hle : active.length ≤ cfg.maxMemories
  · constructor
    · intro _; simp [hle]
    · simp only [hle, if_true]
      rw [hcnt]
      exact Nat.min_le_left _ _
  · have hlt : cfg.maxMemories < active.length := Nat.lt_of_not_le hle
    constructor
    · intro hc; rw [hcnt] at hc; exact absurd hc hle
    · simp only [hle, if_false]
      set excessCount := active.length - cfg.maxMemories with hexcess
      set staleSorted := sortBy (scoreLe now)
        (active.filter (isStaleCandidate now cfg)) with hss
      set firstPass := (staleSorted.take excessCount).map (·.id) with hfp
      set toExpire :=
        if firstPass.length < excessCount then
          firstPass ++ ((sortBy (scoreLe now)
            (active.filter fun m => !(decide (m.id ∈ firstPass)))).take
              (excessCount - firstPass.length)).map (·.id)
        else firstPass with hte
      have hfple : firstPass.length ≤ excessCount := by
        rw [hfp, List.length_map, List.length_take]
        exact Nat.min_le_left _ _
      have hlen : toExpire.length ≤ excessCount := by
        rw [hte]
        split
        · rw [List.length_append]
          have h2 : (((sortBy (scoreLe now)
              (active.filter fun m => !(decide (m.id ∈ firstPass)))).take
                (excessCount - firstPass.length)).map (·.id)).length
              ≤ excessCount - firstPass.length := by
            rw [List.length_map, List.length_take]
            exact Nat.min_le_left _ _
          omega
        · exact hfple
      by_cases hemp : toExpire.isEmpty
      · simp only [hemp, if_true]
        rw [hcnt]
        exact Nat.min_le_left _ _
      · rw [Bool.not_eq_true] at hemp
        simp only [hemp, Bool.false_eq_true, if_false]
        have hdel := countActive_map_delete now uid toExpire s hnd
        have hmin : min (countActive uid s) cfg.maxMemories = cfg.maxMemories := by
          rw [hcnt]
          exact Nat.min_eq_right (Nat.le_of_lt hlt)
        rw [hmin]
        rw [hcnt] at hdel
        omega

/-- A concrete over-limit store for the C1 witness: three active memories of
user 0, sixty days old, never accessed. -/
def c1Store : Store :=
  [ { id := 1, threadId := 0, userId := 0, content := ['a'], accessCount := 0,
      createdAt := 0, lastAccessedAt := none, deletedAt := none,
      consolidatedFromIds := [], lessonPlanId := none },
    { id := 2, threadId := 0, userId := 0, content := ['b'], accessCount := 0,
      createdAt := 0, lastAccessedAt := none, deletedAt := none,
      consolidatedFromIds := [], lessonPlanId := none },
    { id := 3, threadId := 0, userId := 0, content := ['c'], accessCount := 0,
      createdAt := 0, lastAccessedAt := none, deletedAt := none,
      consolidatedFromIds := [], lessonPlanId := none } ]

def c1Cfg : ExpireMemoriesConfig :=
  { maxMemories := 1, minAgeDays := 30, minAccessCount := 2, staleAfterDays := 14 }

/-- Witness for C1 at a concrete over-limit store. -/
theorem expireMemories_monotone_witness :
    ((c1Store.map MemRec.id).Nodup) ∧
    ((countActive 0 c1Store ≤ c1Cfg.maxMemories →
        expireMemories 5184000000 0 c1Cfg c1Store =
          { expiredCount := 0, expiredIds := [], store := c1Store }) ∧
      min (countActive 0 c1Store) c1Cfg.maxMemories ≤
        countActive 0 (expireMemories 5184000000 0 c1Cfg c1Store).store) :=
  ⟨by decide, expireMemories_monotone 5184000000 0 c1Cfg c1Store (by decide)⟩

/-! ### Memory lifecycle worker (`src/workers/thread-update-worker.ts`) -/

/-- One item of the model's replacement memory list
(the `MemoryOutputSchema` element shape). -/
structure OutputItem where
  content : List Char
  sourceIds : List Nat
  lessonPlanId : Option Nat
deriving DecidableEq, Repr

/-- `existingMap.get(id)`: lookup in the loaded snapshot of existing active
memories (ids are unique in the snapshot, so first match is the match). -/
def lookupE (e : List MemRec) (id : Nat) : Option MemRec :=
  e.find? fun m => m.id == id

/-- A JavaScript `Set<string>` add: insertion-ordered, duplicates ignored. -/
def insertUnique (l : List Nat) (a : Nat) : List Nat :=
  if a ∈ l then l else l ++ [a]

/-- `Memory.findByIdAndUpdate(id, ...)`: update the document with `_id = id`
(`_id` carries a unique index, so the embedding updates every record with
that id). -/
def updateById (id : Nat) (f : MemRec → MemRec) (s : Store) : Store :=
  s.map fun m => if m.id = id then f m else m

/-- `allOriginalIds`: a `Set` seeded, per source memory in order, with its id
followed by its previously recorded `consolidatedFromIds`. -/
def allOriginalIds (sources : List MemRec) : List Nat :=
  sources.foldl (fun acc m => m.consolidatedFromIds.foldl insertUnique (insertUnique acc m.id)) []

/-- Descending sort of the non-null `lastAccessedAt` values; its head is the
most recent one (`|| null` when none exist). -/
def mostRecentAccess (sources : List MemRec) : Option Int :=
  (sortBy (fun a b => decide (b ≤ a)) (sources.filterMap (·.lastAccessedAt))).head?

/-- The new document created by `Memory.create({threadId, userId, content,
lessonPlanId})` (schema defaults: `accessCount 0`, null timestamps, empty
`consolidatedFromIds`; `timestamps: true` stamps `createdAt` with now). -/
def newMemory (now : Int) (tid uid nid : Nat) (o : OutputItem) : MemRec :=
  { id := nid, threadId := tid, userId := uid, content := o.content,
    accessCount := 0, createdAt := now, lastAccessedAt := none,
    deletedAt := none, consolidatedFromIds := [], lessonPlanId := o.lessonPlanId }

/-- The body of the `for (const output of outputMemories)` loop of
`extractMemories`: filter the item's `sourceIds` to ids present in the
loaded snapshot `e`, then create / update / consolidate.  The threaded state
is the store, the accumulated `processedIds` (a `Set`, kept as a list — only
membership is consumed), and the id counter for created documents. -/
def processOutput (now : Int) (tid uid : Nat) (e : List MemRec) :
    Store × List Nat × Nat → OutputItem → Store × List Nat × Nat :=
  fun acc o =>
    let s := acc.1
    let processed := acc.2.1
    let nid := acc.2.2
    match o.sourceIds.filter (fun id => (lookupE e id).isSome) with
    | [] =>
      (s ++ [newMemory now tid uid nid o], processed, nid + 1)
    | [sourceId] =>
      match lookupE e sourceId with
      | some existing =>
        if existing.content ≠ o.content ∨ existing.lessonPlanId ≠ o.lessonPlanId then
          (updateById sourceId
            (fun m => { m with content := o.content, lessonPlanId := o.lessonPlanId }) s,
           processed ++ [sourceId], nid)
        else (s, processed ++ [sourceId], nid)
      | none => (s, processed ++ [sourceId], nid)
    | sourceIds =>
      let sourceMemories := sourceIds.filterMap (lookupE e)
      let totalAccessCount := sourceMemories.foldl (fun acc m => acc + m.accessCount) 0
      let lastAccessedAt := mostRecentAccess sourceMemories
      let originalIds := allOriginalIds sourceMemories
      match sortBy (fun a b => decide (a.createdAt ≤ b.createdAt)) sourceMemories with
      | [] => (s, processed ++ sourceIds, nid)
      | keep :: rest =>
        let deleteIds := rest.map (·.id)
        let s1 := updateById keep.id
          (fun m => { m with content := o.content, accessCount := totalAccessCount,
                             lastAccessedAt := lastAccessedAt,
                             consolidatedFromIds := originalIds.erase keep.id,
                             lessonPlanId := o.lessonPlanId }) s
        let s2 := if deleteIds.isEmpty then s1 else softDeleteMemories now deleteIds s1
        (s2, processed ++ sourceIds, nid)

/-- The reconciliation phase of `extractMemories` (everything between the
model call and the trailing `expireMemories`/notification): load the active
snapshot sorted by `createdAt` descending, no-op on an empty output list,
otherwise run the per-item loop and then soft-delete every loaded memory
whose id was never processed. -/
def extractMemoriesStep (now : Int) (tid uid nid : Nat)
    (outputMemories : List OutputItem) (s : Store) : Store :=
  let existingMemories := sortBy (fun a b => decide (b.createdAt ≤ a.createdAt))
    (s.filter fun m => decide (m.userId = uid) && decide (m.deletedAt = none))
  if outputMemories.isEmpty then s
  else
    let r := outputMemories.foldl (processOutput now tid uid existingMemories)
      (s, ([] : List Nat), nid)
    let removedIds := (existingMemories.filter
      (fun m => !(decide (m.id ∈ r.2.1)))).map (·.id)
    if removedIds.isEmpty then r.1 else softDeleteMemories now removedIds r.1

/-- Every id added to `processedIds` by one loop iteration comes from that
item's `sourceIds`. -/
theorem processOutput_processed_sub (now : Int) (tid uid : Nat) (e : List MemRec)
    (acc : Store × List Nat × Nat) (o : OutputItem) (x : Nat)
    (hx : x ∈ (processOutput now tid uid e acc o).2.1) :
    x ∈ acc.2.1 ∨ x ∈ o.sourceIds := by
  unfold processOutput at hx
  split at hx
  case _ heq =>
    exact Or.inl hx
  case _ sourceId heq =>
    have hsrc : sourceId ∈ o.sourceIds := by
      have : sourceId ∈ o.sourceIds.filter (fun id => (lookupE e id).isSome) := by
        rw [heq]; exact List.mem_singleton_self _
      exact List.mem_of_mem_filter this
    split at hx
    · split at hx
      · rcases List.mem_append.mp hx with h | h
        · exact Or.inl h
        · exact Or.inr (by rwa [List.mem_singleton.mp h])
      · rcases List.mem_append.mp hx with h | h
        · exact Or.inl h
        · exact Or.inr (by rwa [List.mem_singleton.mp h])
    · rcases List.mem_append.mp hx with h | h
      · exact Or.inl h
      · exact Or.inr (by rwa [List.mem_singleton.mp h])
  case _ h1 h2 =>
    have hsub : ∀ y, y ∈ o.sourceIds.filter (fun id => (lookupE e id).isSome) →
        y ∈ o.sourceIds := fun y hy => List.mem_of_mem_filter hy
    simp only [] at hx
    split at hx
    · rcases List.mem_append.mp hx with h | h
      · exact Or.inl h
      · exact Or.inr (hsub x h)
    · rcases List.mem_append.mp hx with h | h
      · exact Or.inl h
      · exact Or.inr (hsub x h)

/-- Over the whole loop, `processedIds` only holds ids referenced by some
output item's `sourceIds` (beyond what it started with). -/
theorem foldl_processed_sub (now : Int) (tid uid : Nat) (e : List MemRec)
    (outputs : List OutputItem) :
    ∀ acc x, x ∈ (outputs.foldl (processOutput now tid uid e) acc).2.1 →
      x ∈ acc.2.1 ∨ ∃ o ∈ outputs, x ∈ o.sourceIds := by
  induction outputs with
  | nil => exact fun acc x hx => Or.inl hx
  | cons o os ih =>
    intro acc x hx
    rcases ih _ x hx with h | h
    · rcases processOutput_processed_sub now tid uid e acc o x h with h' | h'
      · exact Or.inl h'
      · exact Or.inr ⟨o, List.mem_cons_self o os, h'⟩
    · obtain ⟨o', ho', hxo⟩ := h
      exact Or.inr ⟨o', List.mem_cons_of_mem o ho', hxo⟩

/-- For C2's counterexample: a single active memory of user 0. -/
def c2Mem : MemRec :=
  { id := 1, threadId := 0, userId := 0, content := ['x'], accessCount := 0,
    createdAt := 0, lastAccessedAt := none, deletedAt := none,
    consolidatedFromIds := [], lessonPlanId := none }

/-- C2 counterexample: when the model output list is empty, the worker
returns early and the existing active memory, though referenced by no
output item, is left active (not soft-deleted) — refuting the claim's
"including an output whose memory list is empty" clause. -/
theorem extractMemoriesStep_empty_output_counterexample :
    extractMemoriesStep 50 0 0 10 [] [c2Mem] = [c2Mem] ∧
    c2Mem.userId = 0 ∧ c2Mem.deletedAt = none := by decide

/-- C2 (amended) — for every *non-empty* model output list, every existing
active memory of the user whose id is referenced by no output item's
`sourceIds` is soft-deleted by the worker's reconciliation step. -/
theorem extractMemoriesStep_removes_unreferenced
    (now : Int) (tid uid nid : Nat) (outputs : List OutputItem) (s : Store)
    (m : MemRec)
    (houtputs : outputs ≠ [])
    (hm : m ∈ s) (huid : m.userId = uid) (hact : m.deletedAt = none)
    (href : ∀ o ∈ outputs, m.id ∉ o.sourceIds) :
    ∀ m' ∈ extractMemoriesStep now tid uid nid outputs s,
      m'.id = m.id → m'.deletedAt = some now := by
  intro m' hm' hid
  unfold extractMemoriesStep at hm'
  rw [List.isEmpty_eq_false_iff_exists_mem.mpr
    ⟨outputs.head houtputs, List.head_mem houtputs⟩] at hm'
  simp only [Bool.false_eq_true, if_false] at hm'
  set e := sortBy (fun a b => decide (b.createdAt ≤ a.createdAt))
    (s.filter fun m => decide (m.userId = uid) && decide (m.deletedAt = none)) with he
  set r := outputs.foldl (processOutput now tid uid e) (s, ([] : List Nat), nid) with hr
  set removedIds := (e.filter (fun m => !(decide (m.id ∈ r.2.1)))).map (·.id) with hrem
  have hmE : m ∈ e := by
    rw [he, mem_sortBy]
    exact List.mem_filter.mpr ⟨hm, by simp [huid, hact]⟩
  have hnp : m.id ∉ r.2.1 := by
    intro hin
    rcases foldl_processed_sub now tid uid e outputs (s, ([] : List Nat), nid) m.id hin with
      h | ⟨o, ho, hxo⟩
    · exact absurd h (List.not_mem_nil _)
    · exact href o ho hxo
  have hmrem : m.id ∈ removedIds := by
    rw [hrem]
    exact List.mem_map.mpr ⟨m, List.mem_filter.mpr ⟨hmE, by simp [hnp]⟩, rfl⟩
  rw [List.isEmpty_eq_false_iff_exists_mem.mpr ⟨m.id, hmrem⟩] at hm'
  simp only [Bool.false_eq_true, if_false] at hm'
  unfold softDeleteMemories at hm'
  rw [List.isEmpty_eq_false_iff_exists_mem.mpr ⟨m.id, hmrem⟩] at hm'
  simp only [Bool.false_eq_true, if_false] at hm'
  obtain ⟨x, hxmem, hxeq⟩ := List.mem_map.mp hm'
  by_cases hxid : x.id ∈ removedIds
  · rw [if_pos hxid] at hxeq
    rw [← hxeq]
  · rw [if_neg hxid] at hxeq
    rw [← hxeq] at hid
    exact absurd (hid ▸ hmrem) hxid

def c2Outputs : List OutputItem :=
  [{ content := ['n','e','w'], sourceIds := [], lessonPlanId := none }]

/-- Witness for the amended C2: one output item with no sources, one active
memory that it does not reference. -/
theorem extractMemoriesStep_removes_unreferenced_witness :
    (c2Outputs ≠ []) ∧ (c2Mem ∈ [c2Mem]) ∧ (c2Mem.userId = 0) ∧
    (c2Mem.deletedAt = none) ∧ (∀ o ∈ c2Outputs, c2Mem.id ∉ o.sourceIds) ∧
    (∀ m' ∈ extractMemoriesStep 70 0 0 10 c2Outputs [c2Mem],
      m'.id = c2Mem.id → m'.deletedAt = some 70) :=
  ⟨by decide, by decide, rfl, rfl, by decide,
    extractMemoriesStep_removes_unreferenced 70 0 0 10 c2Outputs [c2Mem] c2Mem
      (by decide) (by decide) rfl rfl (by decide)⟩

/-- C9 — an output item all of whose `sourceIds` are unknown to the active
snapshot is treated exactly like a brand-new item: one new memory is
created, the store is otherwise untouched, nothing is marked processed, and
no update, consolidation or error occurs. -/
theorem processOutput_unknown_sources_creates
    (now : Int) (tid uid : Nat) (e : List MemRec) (s : Store)
    (processed : List Nat) (nid : Nat) (o : OutputItem)
    (h : ∀ sid ∈ o.sourceIds, lookupE e sid = none) :
    processOutput now tid uid e (s, processed, nid) o =
      (s ++ [newMemory now tid uid nid o], processed, nid + 1) := by
  have hfil : o.sourceIds.filter (fun id => (lookupE e id).isSome) = [] := by
    rw [List.filter_eq_nil_iff]
    intro a ha
    rw [h a ha]
    simp
  unfold processOutput
  rw [hfil]

def c9Snapshot : List MemRec :=
  [ { id := 5, threadId := 0, userId := 0, content := ['k'], accessCount := 1,
      createdAt := 0, lastAccessedAt := none, deletedAt := none,
      consolidatedFromIds := [], lessonPlanId := none } ]

def c9Output : OutputItem :=
  { content := ['f','a','c','t'], sourceIds := [99, 100], lessonPlanId := none }

/-- Witness for C9: both referenced ids are absent from the snapshot. -/
theorem processOutput_unknown_sources_creates_witness :
    (∀ sid ∈ c9Output.sourceIds, lookupE c9Snapshot sid = none) ∧
    processOutput 40 0 0 c9Snapshot ([], [7], 11) c9Output =
      ([newMemory 40 0 0 11 c9Output], [7], 12) :=
  ⟨by decide,
    processOutput_unknown_sources_creates 40 0 0 c9Snapshot [] [7] 11 c9Output
      (by decide)⟩

/-- JavaScript `Set` membership. -/
theorem mem_insertUnique (l : List Nat) (a x : Nat) :
    x ∈ insertUnique l a ↔ x ∈ l ∨ x = a := by
  unfold insertUnique
  split
  · constructor
    · exact Or.inl
    · rintro (h | rfl)
      · exact h
      · assumption
  · simp

theorem nodup_insertUnique (l : List Nat) (a : Nat) (h : l.Nodup) :
    (insertUnique l a).Nodup := by
  unfold insertUnique
  split
  · exact h
  · next hna =>
    rw [List.nodup_append]
    exact ⟨h, List.nodup_singleton a,
      fun x hx hxa => hna ((List.mem_singleton.mp hxa) ▸ hx)⟩

theorem mem_foldl_insertUnique (ids : List Nat) :
    ∀ l x, x ∈ ids.foldl insertUnique l ↔ x ∈ l ∨ x ∈ ids := by
  induction ids with
  | nil => simp
  | cons i is ih =>
    intro l x
    rw [List.foldl_cons, ih, mem_insertUnique]
    simp
    tauto

theorem nodup_foldl_insertUnique (ids : List Nat) :
    ∀ l, l.Nodup → (ids.foldl insertUnique l).Nodup := by
  induction ids with
  | nil => exact fun l h => h
  | cons i is ih =>
    intro l h
    exact ih _ (nodup_insertUnique l i h)

theorem mem_allOriginalIds_pair (src₁ src₂ : MemRec) (x : Nat) :
    x ∈ allOriginalIds [src₁, src₂] ↔
      x = src₁.id ∨ x ∈ src₁.consolidatedFromIds ∨
      x = src₂.id ∨ x ∈ src₂.consolidatedFromIds := by
  unfold allOriginalIds
  simp only [List.foldl_cons, List.foldl_nil]
  rw [mem_foldl_insertUnique, mem_insertUnique, mem_foldl_insertUnique,
    mem_insertUnique]
  simp
  tauto

theorem nodup_allOriginalIds (sources : List MemRec) :
    (allOriginalIds sources).Nodup := by
  unfold allOriginalIds
  suffices h : ∀ l : List Nat, l.Nodup → (sources.foldl
      (fun (acc : List Nat) (m : MemRec) =>
        m.consolidatedFromIds.foldl insertUnique (insertUnique acc m.id)) l).Nodup by
    exact h [] List.nodup_nil
  induction sources with
  | nil => exact fun l h => h
  | cons m ms ih =>
    intro l h
    exact ih _ (nodup_foldl_insertUnique _ _ (nodup_insertUnique l m.id h))

/-- Reduction of the consolidation branch for an output item referencing
exactly two known sources, the first created strictly earlier. -/
theorem processOutput_consolidate_pair
    (now : Int) (tid uid : Nat) (e : List MemRec) (s : Store)
    (processed : List Nat) (nid : Nat) (o : OutputItem) (A B : MemRec)
    (hsrc : o.sourceIds = [A.id, B.id])
    (hA : lookupE e A.id = some A)
    (hB : lookupE e B.id = some B)
    (horder : A.createdAt < B.createdAt) :
    processOutput now tid uid e (s, processed, nid) o =
      (softDeleteMemories now [B.id]
         (updateById A.id (fun m =>
            { m with content := o.content,
                     accessCount := 0 + A.accessCount + B.accessCount,
                     lastAccessedAt := mostRecentAccess [A, B],
                     consolidatedFromIds := (allOriginalIds [A, B]).erase A.id,
                     lessonPlanId := o.lessonPlanId }) s),
       processed ++ [A.id, B.id], nid) := by
  have hfil : o.sourceIds.filter (fun id => (lookupE e id).isSome) = [A.id, B.id] := by
    rw [hsrc]
    simp [List.filter, hA, hB]
  have hsm : ([A.id, B.id]).filterMap (lookupE e) = [A, B] := by
    simp [List.filterMap, hA, hB]
  have hsort : sortBy (fun a b => decide (a.createdAt ≤ b.createdAt)) [A, B] = [A, B] := by
    simp [sortBy, insertBy, le_of_lt horder]
  unfold processOutput
  rw [hfil]
  simp only [hsm, hsort, List.map_cons, List.map_nil, List.isEmpty_cons,
    List.foldl_cons, List.foldl_nil, Bool.false_eq_true, if_false]

/-- C4 — Consolidation accounting: consolidating A (accessCount 3) and B
(accessCount 2), with A created earlier and both active in the snapshot,
updates the record with A's id to the merged memory with accessCount 5, the
most recent `lastAccessedAt` of the two sources, and `consolidatedFromIds`
equal to the flattened union of the sources' ids and their prior
`consolidatedFromIds` with A's own id excluded, while the record with B's
id is soft-deleted. -/
theorem consolidation_accounting
    (now : Int) (tid uid : Nat) (e : List MemRec) (s : Store)
    (processed : List Nat) (nid : Nat) (o : OutputItem) (A B : MemRec)
    (hsrc : o.sourceIds = [A.id, B.id])
    (hA : lookupE e A.id = some A) (hB : lookupE e B.id = some B)
    (hne : A.id ≠ B.id)
    (horder : A.createdAt < B.createdAt)
    (hAcc : A.accessCount = 3) (hBcc : B.accessCount = 2) :
    (processOutput now tid uid e (s, processed, nid) o).1 =
      s.map (fun m =>
        if m.id = A.id then
          { m with content := o.content, accessCount := 5,
                   lastAccessedAt := mostRecentAccess [A, B],
                   consolidatedFromIds := (allOriginalIds [A, B]).erase A.id,
                   lessonPlanId := o.lessonPlanId }
        else if m.id = B.id then { m with deletedAt := some now } else m) ∧
    (∀ x, x ∈ (allOriginalIds [A, B]).erase A.id ↔
      (x = B.id ∨ x ∈ A.consolidatedFromIds ∨ x ∈ B.consolidatedFromIds) ∧
        x ≠ A.id) ∧
    (mostRecentAccess [A, B] =
      match A.lastAccessedAt, B.lastAccessedAt with
      | none, none => none
      | some a, none => some a
      | none, some b => some b
      | some a, some b => some (max a b)) := by
  refine ⟨?_, ?_, ?_⟩
  · rw [processOutput_consolidate_pair now tid uid e s processed nid o A B
      hsrc hA hB horder]
    show softDeleteMemories now [B.id] (updateById A.id _ s) = _
    unfold softDeleteMemories updateById
    simp only [List.isEmpty_cons, Bool.false_eq_true, if_false, List.map_map]
    apply List.map_congr_left
    intro m _
    simp only [Function.comp_apply]
    by_cases hmA : m.id = A.id
    · rw [if_pos hmA, if_pos hmA]
      have : ¬ (m.id ∈ [B.id]) := by
        simp only [List.mem_singleton]
        rw [hmA]
        exact hne
      rw [if_neg this]
      rw [hAcc, hBcc]
      norm_num
    · rw [if_neg hmA, if_neg hmA]
      by_cases hmB : m.id = B.id
      · rw [if_pos (List.mem_singleton.mpr hmB), if_pos hmB]
      · rw [if_neg (fun h => hmB (List.mem_singleton.mp h)), if_neg hmB]
  · intro x
    rw [(nodup_allOriginalIds [A, B]).mem_erase_iff, mem_allOriginalIds_pair]
    tauto
  · unfold mostRecentAccess
    cases hA' : A.lastAccessedAt with
    | none =>
      cases hB' : B.lastAccessedAt with
      | none => simp [List.filterMap, hA', hB', sortBy]
      | some b => simp [List.filterMap, hA', hB', sortBy, insertBy]
    | some a =>
      cases hB' : B.lastAccessedAt with
      | none => simp [List.filterMap, hA', hB', sortBy, insertBy]
      | some b =>
        simp only [List.filterMap_cons, hA', hB', List.filterMap_nil, sortBy,
          insertBy]
        by_cases hba : b ≤ a
        · simp [hba, max_eq_left hba]
        · simp [hba, max_eq_right (le_of_not_le hba)]

def c4A : MemRec :=
  { id := 1, threadId := 0, userId := 0, content := ['a'], accessCount := 3,
    createdAt := 0, lastAccessedAt := some 10, deletedAt := none,
    consolidatedFromIds := [7], lessonPlanId := none }

def c4B : MemRec :=
  { id := 2, threadId := 0, userId := 0, content := ['b'], accessCount := 2,
    createdAt := 5, lastAccessedAt := some 20, deletedAt := none,
    consolidatedFromIds := [8], lessonPlanId := none }

def c4E : List MemRec := [c4B, c4A]

def c4Out : OutputItem :=
  { content := ['c'], sourceIds := [1, 2], lessonPlanId := none }

/-- Witness for C4 at concrete records A and B. -/
theorem consolidation_accounting_witness :
    (c4Out.sourceIds = [c4A.id, c4B.id]) ∧ (lookupE c4E c4A.id = some c4A) ∧
    (lookupE c4E c4B.id = some c4B) ∧ (c4A.id ≠ c4B.id) ∧
    (c4A.createdAt < c4B.createdAt) ∧ (c4A.accessCount = 3) ∧
    (c4B.accessCount = 2) ∧
    ((processOutput 100 0 0 c4E ([c4A, c4B], [], 50) c4Out).1 =
      [c4A, c4B].map (fun m =>
        if m.id = c4A.id then
          { m with content := c4Out.content, accessCount := 5,
                   lastAccessedAt := mostRecentAccess [c4A, c4B],
                   consolidatedFromIds := (allOriginalIds [c4A, c4B]).erase c4A.id,
                   lessonPlanId := c4Out.lessonPlanId }
        else if m.id = c4B.id then { m with deletedAt := some 100 } else m)) :=
  ⟨rfl, by decide, by decide, by decide, by decide, rfl, rfl,
    (consolidation_accounting 100 0 0 c4E [c4A, c4B] [] 50 c4Out c4A c4B rfl
      (by decide) (by decide) (by decide) (by decide) rfl rfl).1⟩

/-- For C5's counterexample: a memory that is already soft-deleted. -/
def c5Mem : MemRec :=
  { id := 1, threadId := 0, userId := 0, content := ['m'], accessCount := 0,
    createdAt := 0, lastAccessedAt := none, deletedAt := some 0,
    consolidatedFromIds := [], lessonPlanId := none }

/-- C5 counterexample: re-deleting an already-deleted memory at a later time
overwrites its deletion timestamp (the `updateMany` filter has no
`deletedAt: null` clause), so the call is *not* a state-preserving no-op. -/
theorem softDeleteMemories_redelete_counterexample :
    c5Mem.deletedAt = some 0 ∧
    softDeleteMemories 5 [1] [c5Mem] = [{ c5Mem with deletedAt := some 5 }] ∧
    softDeleteMemories 5 [1] [c5Mem] ≠ [c5Mem] := by decide

/-- C5 (amended) — `softDeleteMemories` never throws (it is a total
function), is a no-op on an empty id list, is idempotent when repeated at
the same timestamp, and re-deleting already-deleted ids keeps them deleted
while refreshing their deletion timestamp to the later call's time (the
second call completely absorbs the first). -/
theorem softDeleteMemories_amended (now now' : Int) (ids : List Nat) (s : Store) :
    softDeleteMemories now [] s = s ∧
    softDeleteMemories now ids (softDeleteMemories now ids s) =
      softDeleteMemories now ids s ∧
    softDeleteMemories now' ids (softDeleteMemories now ids s) =
      softDeleteMemories now' ids s := by
  have habsorb : ∀ t t' : Int, softDeleteMemories t' ids (softDeleteMemories t ids s) =
      softDeleteMemories t' ids s := by
    intro t t'
    unfold softDeleteMemories
    by_cases hids : ids.isEmpty
    · simp [hids]
    · rw [Bool.not_eq_true] at hids
      simp only [hids, Bool.false_eq_true, if_false, List.map_map]
      apply List.map_congr_left
      intro m _
      simp only [Function.comp_apply]
      by_cases hm : m.id ∈ ids
      · simp [hm]
      · simp [hm]
  exact ⟨by simp [softDeleteMemories], habsorb now now, habsorb now now'⟩

/-- C7 — `recordMemoryAccess` bumps exactly the supplied ids that are
active: such a record gets `accessCount + 1` and `lastAccessedAt := now`
and nothing else changes, while a record whose id is not supplied, or which
is already soft-deleted, is left entirely unchanged (deleted memories are
never resurrected). -/
theorem recordMemoryAccess_frame (now : Int) (ids : List Nat) (s : Store)
    (i : Nat) (m : MemRec) (hm : s[i]? = some m) :
    (m.id ∈ ids → m.deletedAt = none →
      (recordMemoryAccess now ids s)[i]? =
        some { m with accessCount := m.accessCount + 1,
                      lastAccessedAt := some now }) ∧
    ((m.id ∉ ids ∨ m.deletedAt ≠ none) →
      (recordMemoryAccess now ids s)[i]? = some m) := by
  constructor
  · intro hin hact
    unfold recordMemoryAccess
    split
    · next hids =>
      exact absurd (List.isEmpty_iff.mp hids ▸ hin) (List.not_mem_nil _)
    · rw [List.getElem?_map, hm]
      simp only [Option.map_some']
      rw [if_pos ⟨hin, hact⟩]
  · intro hout
    unfold recordMemoryAccess
    split
    · exact hm
    · rw [List.getElem?_map, hm]
      simp only [Option.map_some']
      rw [if_neg]
      rintro ⟨hin, hact⟩
      rcases hout with h1 | h1
      · exact h1 hin
      · exact h1 hact

def c7Store : Store :=
  [ { id := 1, threadId := 0, userId := 0, content := ['p'], accessCount := 2,
      createdAt := 0, lastAccessedAt := none, deletedAt := none,
      consolidatedFromIds := [], lessonPlanId := none },
    { id := 2, threadId := 0, userId := 0, content := ['q'], accessCount := 4,
      createdAt := 0, lastAccessedAt := some 1, deletedAt := some 9,
      consolidatedFromIds := [], lessonPlanId := none } ]

/-- Witness for C7: position 0 of a concrete store holds an active supplied
id, position 1 a soft-deleted one. -/
theorem recordMemoryAccess_frame_witness :
    (c7Store[0]? = some (c7Store.head (by decide))) ∧
    ((c7Store.head (by decide)).id ∈ [1, 2] →
      (c7Store.head (by decide)).deletedAt = none →
      (recordMemoryAccess 30 [1, 2] c7Store)[0]? =
        some { c7Store.head (by decide) with
                 accessCount := (c7Store.head (by decide)).accessCount + 1,
                 lastAccessedAt := some 30 }) ∧
    (((c7Store.head (by decide)).id ∉ [1, 2] ∨
        (c7Store.head (by decide)).deletedAt ≠ none) →
      (recordMemoryAccess 30 [1, 2] c7Store)[0]? =
        some (c7Store.head (by decide))) :=
  ⟨by decide,
    recordMemoryAccess_frame 30 [1, 2] c7Store 0 (c7Store.head (by decide))
      (by decide)⟩

/-! ### Agent completion loop (`src/core/agent.ts`, `Agent.createResponse`) -/

def lbrace : Char := Char.ofNat 123
def rbrace : Char := Char.ofNat 125

def startsWithList : List Char → List Char → Bool
  | [], _ => true
  | _ :: _, [] => false
  | p :: ps, c :: cs => p == c && startsWithList ps cs

/-- `String.prototype.indexOf(pat)` (as `Option`, JS returns `-1` for a
miss). -/
def indexOfSub (pat : List Char) : List Char → Option Nat
  | [] => if startsWithList pat [] then some 0 else none
  | c :: cs =>
    if startsWithList pat (c :: cs) then some 0
    else (indexOfSub pat cs).map (· + 1)

/-- The literal marker `"response":"` the extractor scans for; 12
characters, matching the `responseStart + 12` offset in the source. -/
def respMarker : List Char := "\"response\":\"".data

/-- One global pass of `replace` for a two-character pattern `a b ↦ r`
(left-to-right, non-overlapping, as a regex `/ab/g` behaves). -/
def replace2 (a b r : Char) : List Char → List Char
  | [] => []
  | [c] => [c]
  | c :: d :: rest =>
    if c = a ∧ d = b then r :: replace2 a b r rest
    else c :: replace2 a b r (d :: rest)

/-- The JSON-string unescaping chain of the extractor:
`\\ ↦ NUL`, then `\n`, then `\"`, then `NUL ↦ \` (order matters). -/
def unescape (l : List Char) : List Char :=
  (replace2 '\\' '\"' '\"' (replace2 '\\' 'n' '\n'
    (replace2 '\\' '\\' (Char.ofNat 0) l))).map
    fun c => if c = Char.ofNat 0 then '\\' else c

/-- The `for (let i = streamedLength; ...)` scan for an unescaped closing
quote: `prev` is the character before the scan start (`undefined` when the
scan starts at index 0, which JS treats as "not a backslash"). -/
def scanQuote : Option Char → List Char → Nat → Option Nat
  | _, [], _ => none
  | prev, c :: cs, i =>
    if c = '\"' ∧ prev ≠ some '\\' then some i
    else scanQuote (some c) cs (i + 1)

def findCloseQuote (rb : List Char) (start : Nat) : Option Nat :=
  scanQuote (if start = 0 then none else rb[start - 1]?) (rb.drop start) start

/-- The mutable state of the partial-field streaming loop in
`Agent.createResponse`; `published` accumulates the concatenation of every
delta passed to `publishStreamText`. -/
structure StreamState where
  structuredContent : List Char
  inResponseField : Bool
  responseBuffer : List Char
  streamedLength : Nat
  published : List Char
deriving DecidableEq, Repr

def streamInit : StreamState :=
  { structuredContent := [], inResponseField := false, responseBuffer := [],
    streamedLength := 0, published := [] }

/-- One iteration of `for await (const chunk of structuredStream)`:
append the delta, detect/extend the `response` field buffer, then publish
the unescaped new span up to (not including) an unescaped closing quote. -/
def stepChunk (st : StreamState) (delta : List Char) : StreamState :=
  let sc := st.structuredContent ++ delta
  let detected :=
    if st.inResponseField then (true, st.responseBuffer ++ delta)
    else
      match indexOfSub respMarker sc with
      | some i => (true, sc.drop (i + 12))
      | none => (false, st.responseBuffer)
  let inResp := detected.1
  let rb := detected.2
  if inResp && decide (st.streamedLength < rb.length) then
    let toStream :=
      match findCloseQuote rb st.streamedLength with
      | none => rb.drop st.streamedLength
      | some endIdx => (rb.drop st.streamedLength).take (endIdx - st.streamedLength)
    if toStream.isEmpty then
      { structuredContent := sc, inResponseField := inResp, responseBuffer := rb,
        streamedLength := st.streamedLength, published := st.published }
    else
      { structuredContent := sc, inResponseField := inResp, responseBuffer := rb,
        streamedLength := st.streamedLength + toStream.length,
        published := st.published ++ unescape toStream }
  else
    { structuredContent := sc, inResponseField := inResp, responseBuffer := rb,
      streamedLength := st.streamedLength, published := st.published }

/-- Run the streaming loop over a list of chunk deltas. -/
def runStream (chunks : List (List Char)) : StreamState :=
  chunks.foldl stepChunk streamInit

/-- The fixed complete payload of the streaming/parse-equivalence property. -/
def payloadText : String :=
  "\x7b\"response\":\"Hello, world!\",\"memoriesReferenced\":[\"m1\"]\x7d"

def payload : List Char := payloadText.data

/-! A minimal model of the platform `JSON.parse` builtin (not repository
code), covering the constructs the structured-output schema can produce:
objects, arrays, strings (with the common escapes), booleans and null. -/

inductive JValue where
  | jstr (s : List Char)
  | jarr (xs : List JValue)
  | jobj (fields : List (List Char × JValue))
  | jnull
  | jbool (b : Bool)
deriving Repr

def jsonWs (c : Char) : Bool := c = ' ' ∨ c = '\t' ∨ c = '\n' ∨ c = '\r'

def skipWs (l : List Char) : List Char := l.dropWhile jsonWs

def parseEsc (c : Char) : Option Char :=
  if c = '\"' then some '\"'
  else if c = '\\' then some '\\'
  else if c = '/' then some '/'
  else if c = 'n' then some '\n'
  else if c = 't' then some '\t'
  else if c = 'r' then some '\r'
  else if c = 'b' then some (Char.ofNat 8)
  else if c = 'f' then some (Char.ofNat 12)
  else none

/-- Body of a JSON string after its opening quote; returns the decoded
characters and the rest of the input past the closing quote. -/
def parseStringBody : List Char → Option (List Char × List Char)
  | [] => none
  | c :: cs =>
    if c = '\"' then some ([], cs)
    else if c = '\\' then
      match cs with
      | [] => none
      | e :: cs' =>
        match parseEsc e with
        | some r => (parseStringBody cs').map fun p => (r :: p.1, p.2)
        | none => none
    else (parseStringBody cs).map fun p => (c :: p.1, p.2)

mutual

def parseValue : Nat → List Char → Option (JValue × List Char)
  | 0, _ => none
  | fuel + 1, input =>
    match skipWs input with
    | [] => none
    | c :: cs =>
      if c = '\"' then (parseStringBody cs).map fun p => (JValue.jstr p.1, p.2)
      else if c = '[' then
        match skipWs cs with
        | ']' :: rest => some (JValue.jarr [], rest)
        | _ => parseArrItems fuel cs []
      else if c = lbrace then
        match skipWs cs with
        | r :: rest =>
          if r = rbrace then some (JValue.jobj [], rest)
          else parseObjItems fuel cs []
        | [] => none
      else if startsWithList ['n', 'u', 'l', 'l'] (c :: cs) then
        some (JValue.jnull, (c :: cs).drop 4)
      else if startsWithList ['t', 'r', 'u', 'e'] (c :: cs) then
        some (JValue.jbool true, (c :: cs).drop 4)
      else if startsWithList ['f', 'a', 'l', 's', 'e'] (c :: cs) then
        some (JValue.jbool false, (c :: cs).drop 5)
      else none

def parseArrItems : Nat → List Char → List JValue → Option (JValue × List Char)
  | 0, _, _ => none
  | fuel + 1, input, acc =>
    match parseValue fuel input with
    | none => none
    | some (v, rest) =>
      match skipWs rest with
      | ',' :: rest' => parseArrItems fuel rest' (acc ++ [v])
      | ']' :: rest' => some (JValue.jarr (acc ++ [v]), rest')
      | _ => none

def parseObjItems : Nat → List Char → List (List Char × JValue) →
    Option (JValue × List Char)
  | 0, _, _ => none
  | fuel + 1, input, acc =>
    match skipWs input with
    | '\"' :: cs =>
      match parseStringBody cs with
      | none => none
      | some (key, rest) =>
        match skipWs rest with
        | ':' :: rest' =>
          match parseValue fuel rest' with
          | none => none
          | some (v, rest'') =>
            match skipWs rest'' with
            | ',' :: r3 => parseObjItems fuel r3 (acc ++ [(key, v)])
            | r :: r3 =>
              if r = rbrace then some (JValue.jobj (acc ++ [(key, v)]), r3)
              else none
            | [] => none
        | _ => none
    | _ => none

end

/-- `JSON.parse`, modelled from its standard semantics: parse one value and
require only trailing whitespace. -/
def jsonParse (s : List Char) : Option JValue :=
  match parseValue (s.length + 1) s with
  | some (v, rest) => if (skipWs rest).isEmpty then some v else none
  | none => none

def getField (v : JValue) (key : List Char) : Option JValue :=
  match v with
  | JValue.jobj fields => (fields.find? fun p => p.1 == key).map (·.2)
  | _ => none

/-- The final one-shot extraction `JSON.parse(structuredContent)` with
`parsed.response || ""` and `parsed.memoriesReferenced || []`, falling back
to the raw buffered text as the response when parsing fails. -/
def parseStructured (sc : List Char) : List Char × List (List Char) :=
  match jsonParse sc with
  | some v =>
    (match getField v "response".data with
     | some (JValue.jstr s) => s
     | _ => [],
     match getField v "memoriesReferenced".data with
     | some (JValue.jarr xs) =>
       xs.filterMap fun x => match x with | JValue.jstr s => some s | _ => none
     | _ => [])
  | none => (sc, [])

/-- The extractor's state after consuming the first `n` characters of
`payload` as one single chunk. -/
def prefixState (n : Nat) : StreamState := stepChunk streamInit (payload.take n)

set_option maxHeartbeats 4000000 in
/-- Chunk-boundary invariance over the fixed payload: feeding the next `k`
payload characters to the state reached after `n` lands in the state for
`n + k`, for every split point. -/
theorem stepChunk_prefixState : ∀ n : Nat, n < 57 → ∀ k : Nat, k < 57 →
    n + k ≤ 56 →
    stepChunk (prefixState n) ((payload.drop n).take k) = prefixState (n + k) := by
  decide

theorem payload_length : payload.length = 56 := by decide

/-- Processing any chunk list that spells out a payload segment starting at
`n` is the same as processing that segment as one chunk. -/
theorem runStream_aux : ∀ chunks : List (List Char), ∀ n : Nat,
    n + chunks.flatten.length ≤ 56 →
    chunks.flatten = (payload.drop n).take chunks.flatten.length →
    List.foldl stepChunk (prefixState n) chunks =
      prefixState (n + chunks.flatten.length) := by
  intro chunks
  induction chunks with
  | nil => intro n _ _; simp
  | cons c cs ih =>
    intro n hle hseg
    rw [List.flatten_cons, List.length_append] at hle hseg ⊢
    have hsplit : (payload.drop n).take (c.length + cs.flatten.length)
        = (payload.drop n).take c.length
          ++ (payload.drop (n + c.length)).take cs.flatten.length := by
      rw [List.take_add, List.drop_drop]
    rw [hsplit] at hseg
    have hlenA : ((payload.drop n).take c.length).length = c.length := by
      rw [List.length_take, List.length_drop, payload_length]
      omega
    obtain ⟨hA, hB⟩ := List.append_inj hseg (by rw [hlenA])
    have hstep := stepChunk_prefixState n (by omega) c.length (by omega) (by omega)
    rw [← hA] at hstep
    rw [List.foldl_cons, hstep, ih (n + c.length) (by omega) hB]
    congr 1
    omega

/-- C3 — Streaming/parse equivalence: for every partition of the payload
`{"response":"Hello, world!","memoriesReferenced":["m1"]}` into chunks, the
concatenation of all text deltas published by the streaming extractor is
exactly `Hello, world!`, and the final one-shot parse of the buffered text
yields `response = "Hello, world!"` and `memoriesReferenced = ["m1"]`. -/
theorem streaming_parse_equivalence (chunks : List (List Char))
    (h : chunks.flatten = payload) :
    (runStream chunks).published = "Hello, world!".data ∧
    parseStructured (runStream chunks).structuredContent =
      ("Hello, world!".data, ["m1".data]) := by
  have hflen : chunks.flatten.length = 56 := by rw [h, payload_length]
  have hseg : chunks.flatten = (payload.drop 0).take chunks.flatten.length := by
    rw [h, List.drop_zero, List.take_length]
  have hrun : runStream chunks = prefixState 56 := by
    have h0 : prefixState 0 = streamInit := by decide
    unfold runStream
    rw [← h0, runStream_aux chunks 0 (by omega) hseg, Nat.zero_add, hflen]
  rw [hrun]
  exact ⟨by decide, by decide⟩

/-- Witness for C3: a two-chunk partition splitting the payload in the
middle of the `response` string value. -/
theorem streaming_parse_equivalence_witness :
    ([payload.take 14, payload.drop 14].flatten = payload) ∧
    ((runStream [payload.take 14, payload.drop 14]).published =
        "Hello, world!".data ∧
      parseStructured
          (runStream [payload.take 14, payload.drop 14]).structuredContent =
        ("Hello, world!".data, ["m1".data])) :=
  ⟨by decide,
    streaming_parse_equivalence [payload.take 14, payload.drop 14] (by decide)⟩

/-- What one pass's first model stream amounts to for control flow: either
tool-call fragments were accumulated (`finish_reason tool_calls` or a
non-empty `toolCalls` array), or the pass proceeds to the final structured
response whose buffered text is `structuredContent`. -/
inductive ModelPass where
  | toolPass (toolCalls : List (List Char × List Char))
  | finalPass (structuredContent : List Char)

/-- `const maxPasses = 10`. -/
def maxPasses : Nat := 10

/-- The `for (let pass = 1; pass <= maxPasses; pass++)` completion loop:
a tool pass appends messages and continues; a final pass parses the
structured payload and breaks.  Returns how many passes ran, the response
text and the referenced memory ids (`""` and `[]` when the cap is
exhausted, since they are initialized before the loop). -/
def completionLoopAux (model : Nat → ModelPass) :
    Nat → Nat → Nat × List Char × List (List Char)
  | 0, passesDone => (passesDone, [], [])
  | remaining + 1, passesDone =>
    match model (passesDone + 1) with
    | ModelPass.toolPass _ => completionLoopAux model remaining (passesDone + 1)
    | ModelPass.finalPass sc =>
      let parsed := parseStructured sc
      (passesDone + 1, parsed.1, parsed.2)

def completionLoop (model : Nat → ModelPass) :
    Nat × List Char × List (List Char) :=
  completionLoopAux model maxPasses 0

theorem completionLoopAux_all_tools (model : Nat → ModelPass)
    (h : ∀ p, ∃ tcs, model p = ModelPass.toolPass tcs) :
    ∀ remaining passesDone,
      completionLoopAux model remaining passesDone =
        (remaining + passesDone, [], []) := by
  intro remaining
  induction remaining with
  | zero => intro passesDone; rw [Nat.zero_add]; rfl
  | succ r ih =>
    intro passesDone
    obtain ⟨tcs, heq⟩ := h (passesDone + 1)
    unfold completionLoopAux
    rw [heq, ih (passesDone + 1)]
    have harith : r + (passesDone + 1) = r + 1 + passesDone := by omega
    rw [harith]

/-- C6 — Tool-loop termination: against a model that answers every pass
with tool calls, the completion loop runs exactly the configured maximum
number of passes (10) and then terminates normally — the pass-cap exit
raises nothing and simply leaves the initial empty response text. -/
theorem completionLoop_always_tools_exhausts_passes (model : Nat → ModelPass)
    (h : ∀ p, ∃ tcs, model p = ModelPass.toolPass tcs) :
    completionLoop model = (10, [], []) := by
  unfold completionLoop
  rw [completionLoopAux_all_tools model h maxPasses 0]
  rfl

/-- Witness for C6: the stub model that always requests one tool call. -/
theorem completionLoop_always_tools_witness :
    (∀ p, ∃ tcs, (fun _ : Nat => ModelPass.toolPass [(['t'], ['a'])]) p =
        ModelPass.toolPass tcs) ∧
    completionLoop (fun _ => ModelPass.toolPass [(['t'], ['a'])]) = (10, [], []) :=
  ⟨fun _ => ⟨[(['t'], ['a'])], rfl⟩,
    completionLoop_always_tools_exhausts_passes _ (fun _ => ⟨[(['t'], ['a'])], rfl⟩)⟩

/-- JavaScript `String.prototype.trim` whitespace (the code points the
repository's texts can contain). -/
def isJsWhitespace (c : Char) : Bool :=
  c = ' ' ∨ c = '\t' ∨ c = '\n' ∨ c = '\r' ∨
  c = Char.ofNat 11 ∨ c = Char.ofNat 12 ∨ c = Char.ofNat 0xA0 ∨
  c = Char.ofNat 0xFEFF

def jsTrim (s : List Char) : List Char :=
  ((s.dropWhile isJsWhitespace).reverse.dropWhile isJsWhitespace).reverse

structure FinalizeResult where
  store : Store
  persistedMessage : Option (List Char)
  publishedCompleteText : List Char
  publishedCompleteMemories : List (Nat × List Char)
  returned : List Char
deriving DecidableEq, Repr

/-- The finalization tail of `Agent.createResponse`: bump citations and
fetch the cited documents when any ids were referenced, persist the
assistant turn only when the trimmed response text is non-empty, always
publish the stream-completion event with the (untrimmed) text, and return
that text. -/
def finalizeResponse (now : Int) (responseText : List Char)
    (referencedMemoryIds : List Nat) (s : Store) : FinalizeResult :=
  let s' := if referencedMemoryIds.isEmpty then s
    else recordMemoryAccess now referencedMemoryIds s
  let memoriesUsed := if referencedMemoryIds.isEmpty then []
    else (s'.filter fun m => decide (m.id ∈ referencedMemoryIds)).map
      fun m => (m.id, m.content)
  { store := s',
    persistedMessage :=
      if (jsTrim responseText).isEmpty then none else some responseText,
    publishedCompleteText := responseText,
    publishedCompleteMemories := memoriesUsed,
    returned := responseText }

/-- C10 — when the final response text trims to empty (e.g. the pass cap
was exhausted with the model still requesting tools), no assistant turn is
persisted, yet the stream-completion event still carries that text and the
text is returned to the caller. -/
theorem finalizeResponse_empty_text (now : Int) (responseText : List Char)
    (referencedMemoryIds : List Nat) (s : Store)
    (h : jsTrim responseText = []) :
    (finalizeResponse now responseText referencedMemoryIds s).persistedMessage
        = none ∧
    (finalizeResponse now responseText referencedMemoryIds s).publishedCompleteText
        = responseText ∧
    (finalizeResponse now responseText referencedMemoryIds s).returned
        = responseText := by
  unfold finalizeResponse
  exact ⟨by simp [h], rfl, rfl⟩

/-- Witness for C10: a whitespace-only response text. -/
theorem finalizeResponse_empty_text_witness :
    (jsTrim [' ', '\n'] = []) ∧
    ((finalizeResponse 3 [' ', '\n'] [] []).persistedMessage = none ∧
      (finalizeResponse 3 [' ', '\n'] [] []).publishedCompleteText = [' ', '\n'] ∧
      (finalizeResponse 3 [' ', '\n'] [] []).returned = [' ', '\n']) :=
  ⟨by decide, finalizeResponse_empty_text 3 [' ', '\n'] [] [] (by decide)⟩

/-- A queued memory-extraction job (`{ threadId, userId }`). -/
structure Job where
  threadId : Nat
  userId : Nat
deriving DecidableEq, Repr

/-- The `processQueue` drain loop of the worker: `while (queue.length > 0)`
shift the next job and run it inside `try { ... } catch (error) { log }` —
a failure is recorded (logged) and the loop moves on to the next queued
job.  `run` is the effect of `extractMemories` on a job: either success or
an error. -/
def drainQueue (run : Job → Except (List Char) Unit) :
    List Job → List (Job × Option (List Char))
  | [] => []
  | job :: rest =>
    (match run job with
     | Except.ok _ => (job, none)
     | Except.error e => (job, some e)) :: drainQueue run rest

/-- C8 — the drain loop attempts every queued job in order: each job
appears exactly once in the drain trace paired with its caught error (if
it threw), so no single job failure terminates the drain loop or prevents
any later queued job from running. -/
theorem drainQueue_attempts_every_job (run : Job → Except (List Char) Unit)
    (jobs : List Job) :
    drainQueue run jobs = jobs.map (fun j => (j,
      match run j with
      | Except.ok _ => none
      | Except.error e => some e)) ∧
    (drainQueue run jobs).map Prod.fst = jobs := by
  have h1 : drainQueue run jobs = jobs.map (fun j => (j,
      match run j with
      | Except.ok _ => none
      | Except.error e => some e)) := by
    induction jobs with
    | nil => rfl
    | cons j rest ih =>
      unfold drainQueue
      rw [ih, List.map_cons]
      cases run j <;> rfl
  refine ⟨h1, ?_⟩
  rw [h1, List.map_map]
  have hid : (Prod.fst ∘ fun j => (j,
      match run j with
      | Except.ok _ => none
      | Except.error e => some e)) = id := funext fun j => rfl
  rw [hid, List.map_id]

end TeacherApp
